import Mathlib

/-!
Verification of the ebook-library application (`src/app.py`): a shallow
embedding of its text extractor, index manager, scanner/indexer and the
upload/search/delete route handlers, with theorems settling the spec claims.

Strings are modelled as Lean `String`s, but all character-level processing is
defined over `List Char` (via `String.data`) with structural recursion, so that
every operation evaluates inside the kernel.  The external collaborators the
spec places out of scope (Whoosh, PyPDF2, Flask) are modelled only through the
behavior the application code relies on, as noted at each definition.
-/

namespace EbookSearch

/-- Whitespace test modelling Python's regex `\s` (and `str.strip()`) on the
ASCII range: space, tab, newline, carriage return, vertical tab, form feed.
Unicode whitespace is abstracted away. -/
def isWs (c : Char) : Bool :=
  c = ' ' || c = '\t' || c = '\n' || c = '\r' || c = '\x0b' || c = '\x0c'

/-- Model of `re.sub(r'\s+', ' ', text)`: every maximal run of consecutive
whitespace characters is replaced by a single space.  A whitespace character is
dropped when the next character is also whitespace, so each run contributes
exactly one `' '` (at its last position). -/
def collapseWs : List Char → List Char
  | [] => []
  | [c] => if isWs c then [' '] else [c]
  | c₁ :: c₂ :: cs =>
    if isWs c₁ && isWs c₂ then collapseWs (c₂ :: cs)
    else (if isWs c₁ then ' ' else c₁) :: collapseWs (c₂ :: cs)

/-- Remove leading whitespace (one half of `str.strip()`). -/
def stripL (cs : List Char) : List Char := cs.dropWhile isWs

/-- Remove trailing whitespace (the other half of `str.strip()`). -/
def stripR (cs : List Char) : List Char := (cs.reverse.dropWhile isWs).reverse

/-- Model of Python's `str.strip()`: remove leading and trailing whitespace. -/
def stripWs (cs : List Char) : List Char := stripR (stripL cs)

/-- Accumulator-based splitting of a character list into its maximal runs of
non-whitespace characters (`acc` holds the reversed current word).  Used both
as the specification of whitespace normalization and as the tokenizer in the
model of the search engine's matching. -/
def wordsAux : List Char → List Char → List (List Char)
  | [], acc => if acc.isEmpty then [] else [acc.reverse]
  | c :: cs, acc =>
    if isWs c then
      if acc.isEmpty then wordsAux cs [] else acc.reverse :: wordsAux cs []
    else wordsAux cs (c :: acc)

/-- The maximal non-whitespace runs ("words") of a character list. -/
def wordsOf (cs : List Char) : List (List Char) := wordsAux cs []

/-- Join character lists with a single space between them (a structural model
of `" ".join`). -/
def joinSp : List (List Char) → List Char
  | [] => []
  | [w] => w
  | w :: v :: ws => w ++ ' ' :: joinSp (v :: ws)

/-- Canonical whitespace-normal form: the words of the input joined by single
spaces.  This is the specification-side statement of "every maximal run of
consecutive whitespace collapsed to a single space, leading/trailing
whitespace removed". -/
def normalForm (cs : List Char) : List Char :=
  joinSp (wordsOf cs)

/-- Proof-side reformulation of `wordsOf` by `takeWhile`/`dropWhile`
(well-founded recursion); proved equal to `wordsOf` below. -/
def wordsTW : List Char → List (List Char)
  | [] => []
  | c :: cs =>
    if isWs c then wordsTW cs
    else (c :: cs.takeWhile (fun d => !isWs d)) :: wordsTW (cs.dropWhile (fun d => !isWs d))
termination_by cs => cs.length
decreasing_by
  · simp
  · exact Nat.lt_succ_of_le ((List.dropWhile_sublist _).length_le)

/-- A PDF file in the document store.  `name` is the file name.  PyPDF2 is an
external collaborator: `read1` is the outcome of the first `PdfReader` call
(used for text extraction) and `read2` the outcome of the second one (used to
re-read the page count before indexing) — `none` means the call raises, and a
page's entry is `none` when `page.extract_text()` returns `None`.  Two fields
are used because the code really opens the file twice and the second open can
fail after the first succeeded. -/
structure PdfFile where
  name : String
  read1 : Option (List (Option String))
  read2 : Option (List (Option String))
deriving Repr, DecidableEq

/-- Model of `" ".join(page.extract_text() or "" for page in reader.pages)`. -/
def joinPages (pages : List (Option String)) : List Char :=
  joinSp (pages.map (fun p => (p.getD "").data))

/-- `extract_text_from_pdf` (src/app.py:39-49): join the page texts, collapse
whitespace (`re.sub`), strip; on any extraction exception return `""` instead
of propagating. -/
def extract_text_from_pdf (f : PdfFile) : String :=
  match f.read1 with
  | none => ""
  | some pages => String.mk (stripWs (collapseWs (joinPages pages)))

/-- Model of `str.lower()` for a single character, on the ASCII range (file
names are modelled as ASCII; Unicode case mapping is abstracted away). -/
def lowerChar (c : Char) : Char :=
  if 'A' ≤ c && c ≤ 'Z' then Char.ofNat (c.toNat + 32) else c

/-- Model of `filename.lower().endswith('.pdf')`: lowercase the name and test
whether its last four characters are `.pdf`. -/
def endsWithPdf (s : String) : Bool :=
  let l := (s.data.map lowerChar)
  l.drop (l.length - 4) == ".pdf".data

/-- Model of `os.path.splitext(filename)[0]`: the name up to its last dot,
except that a name whose characters before the last dot are all dots (such as
`.pdf`) has no extension.  Directory separators inside the name are not
treated specially, since only plain file names reach this function. -/
def stemOf (s : String) : String :=
  let cs := s.data
  match cs.reverse.findIdx? (· = '.') with
  | none => s
  | some revIdx =>
    let dotIdx := cs.length - 1 - revIdx
    if (cs.take dotIdx).all (· = '.') then s else String.mk (cs.take dotIdx)

/-- One document record of the index, per `current_schema`
(src/app.py:30-37).  `date_added` is a timestamp in seconds; relevance scores
(floats produced by the engine) are not part of the stored record. -/
structure Doc where
  title : String
  content : String
  path : String
  page_count : Nat
  category : String
  date_added : Nat
deriving Repr, DecidableEq

/-- The field names of `current_schema` (src/app.py:30-37); the schema-check in
`create_or_open_index` only compares field-name sets. -/
def current_schema : List String :=
  ["title", "content", "path", "page_count", "category", "date_added"]

/-- What is on disk at `INDEX_DIR` before `create_or_open_index` runs: no
directory at all, a directory that `open_dir` fails to open (corruption), or a
healthy index with some field set and documents. -/
inductive OnDisk where
  | absent
  | corrupt
  | present (fields : List String) (docs : List Doc)
deriving Repr, DecidableEq

/-- An opened index handle: its schema field names and its documents.  The
document list is the model of the Whoosh segment contents;
`writer.add_document` appends a record (Whoosh's `unique=True` on `path` does
not deduplicate on add), and a writer context commits all its adds at once on
normal exit and cancels them on an exception. -/
structure Ix where
  fields : List String
  docs : List Doc
deriving Repr, DecidableEq

/-- `create_or_open_index` (src/app.py:51-70): create a fresh empty index when
none exists; open an existing one; when any `current_schema` field is missing
from the existing field set, or opening raises, destroy the directory and
recreate an empty index with the current schema. -/
def create_or_open_index : OnDisk → Ix
  | .absent => ⟨current_schema, []⟩
  | .corrupt => ⟨current_schema, []⟩
  | .present fields docs =>
    if current_schema.all (fun fld => fields.contains fld) then ⟨fields, docs⟩
    else ⟨current_schema, []⟩

/-- The scan loop of `index_books` (src/app.py:74-91), one step per file of
`os.listdir(BOOKS_DIR)` in order, carrying the `indexed_files` set: skip names
without a `.pdf` extension and names already indexed in this run; extract
text; for non-empty text, re-open the file for its page count (`none` models
`PdfReader` raising there, which aborts the whole transaction) and emit one
record with category `"Uncategorized"` and timestamp `now`.  `none` overall
means the scan raised. -/
def indexScan (now : Nat) : List PdfFile → List String → Option (List Doc)
  | [], _ => some []
  | f :: fs, indexed =>
    if endsWithPdf f.name = true ∧ f.name ∉ indexed then
      if extract_text_from_pdf f = "" then indexScan now fs indexed
      else
        match f.read2 with
        | none => none
        | some pages2 =>
          match indexScan now fs (f.name :: indexed) with
          | none => none
          | some docs =>
            some ({ title := stemOf f.name, content := extract_text_from_pdf f,
                    path := f.name, page_count := pages2.length,
                    category := "Uncategorized", date_added := now } :: docs)
    else indexScan now fs indexed

/-- `index_books` (src/app.py:72-96): run the scan inside one writer
transaction; on normal completion all records are committed together and the
number of indexed files is returned; on an exception the writer cancels (index
unchanged) and `0` is returned. -/
def index_books (now : Nat) (store : List PdfFile) (ix : List Doc) :
    Nat × List Doc :=
  match indexScan now store [] with
  | none => (0, ix)
  | some docs => (docs.length, ix ++ docs)

/-- The mutable state the handlers act on: the `books` directory and the
document list of the on-disk index. -/
structure AppState where
  store : List PdfFile
  index : List Doc
deriving Repr, DecidableEq

/-- Model of `os.remove` on the store: directory entries have unique names, so
removal is by name. -/
def removeFile (name : String) (store : List PdfFile) : List PdfFile :=
  store.filter (fun g => !(g.name == name))

/-- The user-visible outcome of the upload handler (which flash message /
redirect the request ends in). -/
inductive UploadOutcome where
  | invalidFile
  | duplicate
  | indexed
  | extractionFailed
  | uploadError
deriving Repr, DecidableEq

/-- The upload handler (src/app.py:116-174), for a request that does carry a
file part: reject an empty or non-`.pdf` file name; reject a name that already
exists in the store; otherwise save the file, extract its text and, when the
text is non-empty, re-open the file for its page count and commit one index
record — a raise during that re-open (`read2 = none`) cancels the writer and
falls to the handler's `except`, leaving the saved file behind; empty text
deletes the saved file instead of indexing. -/
def upload (now : Nat) (file : PdfFile) (category : String) (s : AppState) :
    UploadOutcome × AppState :=
  if file.name = "" ∨ endsWithPdf file.name = false then (.invalidFile, s)
  else if ∃ g ∈ s.store, g.name = file.name then (.duplicate, s)
  else if extract_text_from_pdf file = "" then
    (.extractionFailed,
     { s with store := removeFile file.name (s.store ++ [file]) })
  else
    match file.read2 with
    | none => (.uploadError, { s with store := s.store ++ [file] })
    | some pages2 =>
      (.indexed,
       { store := s.store ++ [file],
         index := s.index ++
           [{ title := stemOf file.name, content := extract_text_from_pdf file,
              path := file.name, page_count := pages2.length,
              category := category, date_added := now }] })

/-- The user-visible outcome of the delete handler. -/
inductive DeleteOutcome where
  | deleted
  | notFound
deriving Repr, DecidableEq

/-- The delete handler (src/app.py:230-251): when the file exists, remove it
from the store and delete every index record whose `path` equals the file name
(`writer.delete_by_term('path', filename)`); otherwise report not-found. -/
def delete (filename : String) (s : AppState) : DeleteOutcome × AppState :=
  if ∃ g ∈ s.store, g.name = filename then
    (.deleted, { store := removeFile filename s.store,
                 index := s.index.filter (fun d => !(d.path == filename)) })
  else (.notFound, s)

/-- Modelled from the spec: the query engine is the external indexing library
("query parsed by the index's query engine → ranked hits fetched"); a
single-term query matches a document when the term occurs as a word of its
`content` field. -/
def queryMatches (content query : String) : Bool :=
  (wordsOf content.data).contains query.data

/-- One execution of `searcher.search(query, limit=100)` against the document
set visible to the searcher: the matching documents, capped at 100. -/
def searchIndex (query : String) (docs : List Doc) : List Doc :=
  (docs.filter (fun d => queryMatches d.content query)).take 100

/-- One entry of `search_results` (src/app.py:200-210).  `date_added` holds
the day number of the record's timestamp, because the handler formats the
timestamp with `strftime('%Y-%m-%d')` and later sorts on the parsed day.
Relevance scores (floats) are not modelled. -/
structure SearchResult where
  title : String
  path : String
  snippet : String
  category : String
  date_added : Nat
deriving Repr, DecidableEq

/-- `strftime('%Y-%m-%d')` followed by `strptime`: a seconds timestamp
truncated to its day. -/
def dayOf (t : Nat) : Nat := t / 86400

/-- Build one `search_results` entry from a hit (src/app.py:201-210).  `hl`
models the external highlighter `result.highlights("content", top=1)`; an
empty highlight falls back to the fixed message. -/
def buildResult (hl : Doc → String → String) (query : String) (d : Doc) :
    SearchResult :=
  { title := d.title, path := d.path,
    snippet := if (hl d query) = "" then "No snippet available." else hl d query,
    category := d.category,
    date_added := dayOf d.date_added }

/-- Lexicographic (code-point) comparison of character lists, the order Python
uses to compare strings. -/
def lexLe : List Char → List Char → Bool
  | [], _ => true
  | _ :: _, [] => false
  | a :: as, b :: bs =>
    if a.toNat < b.toNat then true
    else if a.toNat = b.toNat then lexLe as bs
    else false

/-- Stable insertion of `a` into `l`: `a` goes in front of the first element
it compares `le` to. -/
def stInsert (le : α → α → Bool) (a : α) : List α → List α
  | [] => [a]
  | b :: l => if le a b then a :: b :: l else b :: stInsert le a l

/-- Model of Python's stable `list.sort(key=...)`: for a total preorder, every
stable sort (Timsort included) produces this output. -/
def pySort (le : α → α → Bool) : List α → List α
  | [] => []
  | a :: l => stInsert le a (pySort le l)

/-- `key=lambda x: x['title']` — non-decreasing lexicographic title order. -/
def titleLe (a b : SearchResult) : Bool := lexLe a.title.data b.title.data

/-- `key=lambda x: datetime.strptime(x['date_added'], '%Y-%m-%d'),
reverse=True` — Python's `reverse=True` sorts as if each comparison were
reversed while keeping equal elements in their original order. -/
def dateGe (a b : SearchResult) : Bool := decide (b.date_added ≤ a.date_added)

/-- The sorting step of the search handler (src/app.py:212-215): sort by title
for `sort_by == 'title'`, by descending date for `sort_by == 'date'`, and
leave the relevance order untouched for any other value. -/
def sortResults (sort_by : String) (rs : List SearchResult) :
    List SearchResult :=
  if sort_by = "title" then pySort titleLe rs
  else if sort_by = "date" then pySort dateGe rs
  else rs

/-- `per_page = 5` (src/app.py:217). -/
def per_page : Nat := 5

/-- The pagination slice `search_results[start:end]` with
`start = (page - 1) * per_page` (src/app.py:219-221), for pages numbered from
1 (the handler's `page` variable; non-positive page numbers are outside the
modelled range). -/
def paginate (rs : List SearchResult) (page : Nat) : List SearchResult :=
  (rs.drop ((page - 1) * per_page)).take per_page

/-- `total_pages = (len(search_results) + per_page - 1) // per_page`
(src/app.py:222). -/
def total_pages (n : Nat) : Nat := (n + per_page - 1) / per_page

/-- The search handler's response: a rejected blank query, or a rendered page
with its paginated results, page number, total page count, and whether the
zero-hit re-index was triggered (the info flash). -/
inductive SearchResp where
  | blank
  | page (results : List SearchResult) (pageNum : Nat) (totalPages : Nat)
      (reindexed : Bool)
deriving Repr, DecidableEq

/-- The search handler (src/app.py:180-224) for a well-formed request: reject
a blank query; open a searcher over the current index — a Whoosh searcher is a
static snapshot of the index at the time it is opened — and run the query; on
zero hits run `index_books` (whose writer commits to the index) and execute
the same query once more **on the same searcher**, hence against the original
snapshot; build, sort and paginate the results.  `hl` is the external
highlighter, `now` the timestamp used by the re-index. -/
def search (hl : Doc → String → String) (now : Nat)
    (query_str sort_by : String) (pageNum : Nat) (s : AppState) :
    SearchResp × AppState :=
  if stripWs query_str.data = [] then (.blank, s)
  else
    let snapshot := s.index
    let results₀ := searchIndex query_str snapshot
    let retry := results₀.length = 0
    let s' := if retry then { s with index := (index_books now s.store s.index).2 } else s
    let results := if retry then searchIndex query_str snapshot else results₀
    let sorted := sortResults sort_by (results.map (buildResult hl query_str))
    (.page (paginate sorted pageNum) pageNum (total_pages sorted.length) retry, s')

/-- Model of `os.path.join(BOOKS_DIR, name)` for POSIX paths: an absolute
second component replaces the first, otherwise the components are joined with
`/`. -/
def os_path_join (dir name : String) : String :=
  if name.data.head? = some '/' then name
  else String.mk (dir.data ++ '/' :: name.data)

/-- Split a path into its `/`-separated segments (`acc` holds the reversed
current segment). -/
def splitSlashAux : List Char → List Char → List (List Char)
  | [], acc => [acc.reverse]
  | c :: cs, acc =>
    if c = '/' then acc.reverse :: splitSlashAux cs [] else splitSlashAux cs (c :: acc)

/-- The `/`-separated segments of a path. -/
def pathSegments (p : String) : List (List Char) := splitSlashAux p.data []

/-- Resolve `.` and `..` segments of a relative path against a stack of
already-resolved segments: empty and `.` segments vanish, `..` pops the last
real segment (or accumulates at the front when there is nothing left to pop). -/
def resolveSegs : List (List Char) → List (List Char) → List (List Char)
  | [], stack => stack.reverse
  | seg :: rest, stack =>
    if seg = [] || seg = ['.'] then resolveSegs rest stack
    else if seg = ['.', '.'] then
      match stack with
      | [] => resolveSegs rest [seg]
      | top :: stack' =>
        if top = ['.', '.'] then resolveSegs rest (seg :: top :: stack')
        else resolveSegs rest stack'
    else resolveSegs rest (seg :: stack)

/-- A path (as produced by `os.path.join(BOOKS_DIR, ·)`) stays inside the
document-store directory when its resolved first segment is still `books`. -/
def insideBooksDir (p : String) : Bool :=
  match resolveSegs (pathSegments p) [] with
  | seg :: _ => seg == "books".data
  | [] => false

/-! ### Whitespace-normalization lemmas

`re.sub(r'\s+', ' ', text).strip()` (modelled by `stripWs ∘ collapseWs`)
produces exactly the words of the input joined by single spaces
(`normalForm`). -/

theorem collapseWs_cons_not (c : Char) (cs : List Char) (h : isWs c = false) :
    collapseWs (c :: cs) = c :: collapseWs cs := by
  cases cs with
  | nil => simp [collapseWs, h]
  | cons d cs => simp [collapseWs, h]

theorem collapseWs_cons_ws (cs : List Char) (c : Char) (h : isWs c = true) :
    collapseWs (c :: cs) = ' ' :: collapseWs (cs.dropWhile isWs) := by
  induction cs generalizing c with
  | nil => simp [collapseWs, h, List.dropWhile]
  | cons d cs ih =>
    by_cases hd : isWs d
    · rw [show collapseWs (c :: d :: cs) = collapseWs (d :: cs) by
        simp [collapseWs, h, hd]]
      rw [ih d hd, List.dropWhile_cons_of_pos hd]
    · have hd' : isWs d = false := by simpa using hd
      simp [collapseWs, h, hd', List.dropWhile_cons_of_neg]

theorem stripR_nil : stripR [] = [] := rfl

theorem stripR_cons_not (c : Char) (xs : List Char) (h : isWs c = false) :
    stripR (c :: xs) = c :: stripR xs := by
  unfold stripR
  rw [List.reverse_cons, List.dropWhile_append]
  by_cases he : (xs.reverse.dropWhile isWs).isEmpty
  · rw [if_pos he]
    rw [List.isEmpty_iff.mp he]
    simp [List.dropWhile, h]
  · rw [if_neg he]
    simp

theorem stripR_cons_ws (c : Char) (xs : List Char) (h : isWs c = true) :
    stripR (c :: xs) = if stripR xs = [] then [] else c :: stripR xs := by
  unfold stripR
  rw [List.reverse_cons, List.dropWhile_append]
  by_cases he : (xs.reverse.dropWhile isWs).isEmpty
  · rw [if_pos he]
    rw [if_pos (by rw [List.isEmpty_iff.mp he]; rfl)]
    simp [List.dropWhile, h]
  · rw [if_neg he]
    rw [if_neg (by simp_all)]
    simp

theorem isWs_head_dropWhile (cs : List Char) (d : Char) (rest : List Char)
    (h : cs.dropWhile isWs = d :: rest) : isWs d = false := by
  induction cs with
  | nil => simp [List.dropWhile] at h
  | cons c cs ih =>
    rw [List.dropWhile_cons] at h
    split at h
    · exact ih h
    · cases h
      simp_all

theorem stripL_collapseWs_stripL (cs : List Char) :
    stripL (collapseWs (stripL cs)) = collapseWs (stripL cs) := by
  cases h : stripL cs with
  | nil => rfl
  | cons d rest =>
    have hd := isWs_head_dropWhile cs d rest h
    rw [collapseWs_cons_not d rest hd]
    simp [stripL, List.dropWhile_cons, hd]

theorem stripL_collapseWs (cs : List Char) :
    stripL (collapseWs cs) = collapseWs (stripL cs) := by
  cases cs with
  | nil => rfl
  | cons c cs =>
    by_cases hc : isWs c
    · rw [collapseWs_cons_ws cs c hc]
      show stripL _ = _
      unfold stripL
      rw [List.dropWhile_cons_of_pos (show isWs ' ' = true from rfl)]
      rw [List.dropWhile_cons_of_pos hc]
      exact stripL_collapseWs_stripL cs
    · have hc' : isWs c = false := by simpa using hc
      rw [collapseWs_cons_not c cs hc']
      unfold stripL
      rw [List.dropWhile_cons_of_neg (by simp [hc']),
        List.dropWhile_cons_of_neg (by simp [hc'])]
      rw [collapseWs_cons_not c cs hc']

theorem takeWhile_append_all {α : Type} {p : α → Bool} (l₁ l₂ : List α)
    (h : ∀ x ∈ l₁, p x = true) :
    (l₁ ++ l₂).takeWhile p = l₁ ++ l₂.takeWhile p := by
  induction l₁ with
  | nil => simp
  | cons a l₁ ih =>
    rw [List.cons_append, List.takeWhile_cons, if_pos (h a (List.mem_cons_self a l₁))]
    rw [ih (fun x hx => h x (List.mem_cons_of_mem a hx)), List.cons_append]

theorem dropWhile_append_all {α : Type} {p : α → Bool} (l₁ l₂ : List α)
    (h : ∀ x ∈ l₁, p x = true) :
    (l₁ ++ l₂).dropWhile p = l₂.dropWhile p := by
  induction l₁ with
  | nil => simp
  | cons a l₁ ih =>
    rw [List.cons_append, List.dropWhile_cons, if_pos (h a (List.mem_cons_self a l₁))]
    exact ih (fun x hx => h x (List.mem_cons_of_mem a hx))

theorem wordsTW_nil : wordsTW [] = [] := by simp [wordsTW]

theorem wordsTW_cons_ws (c : Char) (cs : List Char) (h : isWs c = true) :
    wordsTW (c :: cs) = wordsTW cs := by
  simp [wordsTW, h]

theorem wordsTW_cons_not (c : Char) (cs : List Char) (h : isWs c = false) :
    wordsTW (c :: cs) =
      (c :: cs.takeWhile (fun d => !isWs d)) ::
        wordsTW (cs.dropWhile (fun d => !isWs d)) := by
  simp [wordsTW, h]

theorem wordsTW_word_append (w cs : List Char) (hw : w ≠ [])
    (h : ∀ c ∈ w, isWs c = false) :
    wordsTW (w ++ cs) =
      (w ++ cs.takeWhile (fun d => !isWs d)) ::
        wordsTW (cs.dropWhile (fun d => !isWs d)) := by
  cases w with
  | nil => exact absurd rfl hw
  | cons a w' =>
    have ha : isWs a = false := h a (List.mem_cons_self a w')
    rw [List.cons_append, wordsTW_cons_not a (w' ++ cs) ha]
    rw [takeWhile_append_all w' cs (fun x hx => by
      simp [h x (List.mem_cons_of_mem a hx)])]
    rw [dropWhile_append_all w' cs (fun x hx => by
      simp [h x (List.mem_cons_of_mem a hx)])]
    simp

theorem wordsAux_eq_wordsTW (cs : List Char) : ∀ acc : List Char,
    (∀ c ∈ acc, isWs c = false) →
    wordsAux cs acc = wordsTW (acc.reverse ++ cs) := by
  induction cs with
  | nil =>
    intro acc hacc
    cases acc with
    | nil => simp [wordsAux, wordsTW]
    | cons a acc' =>
      rw [show wordsAux [] (a :: acc') = [(a :: acc').reverse] from rfl]
      rw [wordsTW_word_append (a :: acc').reverse [] (by simp)
        (fun c hc => hacc c (List.mem_reverse.mp hc))]
      simp [wordsTW]
  | cons c cs ih =>
    intro acc hacc
    by_cases hc : isWs c
    · cases acc with
      | nil =>
        rw [show wordsAux (c :: cs) [] = wordsAux cs [] by simp [wordsAux, hc]]
        rw [ih [] (by simp)]
        simp [wordsTW_cons_ws c cs hc]
      | cons a acc' =>
        rw [show wordsAux (c :: cs) (a :: acc') =
              (a :: acc').reverse :: wordsAux cs [] by simp [wordsAux, hc]]
        rw [ih [] (by simp)]
        rw [wordsTW_word_append (a :: acc').reverse (c :: cs) (by simp)
          (fun x hx => hacc x (List.mem_reverse.mp hx))]
        rw [show (c :: cs).takeWhile (fun d => !isWs d) = [] by
          simp [List.takeWhile_cons, hc]]
        rw [show (c :: cs).dropWhile (fun d => !isWs d) = c :: cs by
          simp [List.dropWhile_cons, hc]]
        rw [wordsTW_cons_ws c cs hc]
        simp
    · have hc' : isWs c = false := by simpa using hc
      rw [show wordsAux (c :: cs) acc = wordsAux cs (c :: acc) by
        simp [wordsAux, hc']]
      rw [ih (c :: acc) (fun x hx => by
        rcases List.mem_cons.mp hx with h1 | h2
        · rw [h1]; exact hc'
        · exact hacc x h2)]
      simp

theorem wordsOf_eq_wordsTW (cs : List Char) : wordsOf cs = wordsTW cs := by
  rw [wordsOf, wordsAux_eq_wordsTW cs [] (by simp)]
  simp

theorem wordsTW_stripL (cs : List Char) :
    wordsTW (cs.dropWhile isWs) = wordsTW cs := by
  induction cs with
  | nil => rfl
  | cons c cs ih =>
    by_cases hc : isWs c
    · rw [List.dropWhile_cons_of_pos hc, ih, wordsTW_cons_ws c cs hc]
    · have hc' : isWs c = false := by simpa using hc
      rw [List.dropWhile_cons_of_neg (by simp [hc'])]

theorem wordsTW_ne_nil : ∀ cs : List Char, ∀ w ∈ wordsTW cs, w ≠ []
  | [] => by simp [wordsTW]
  | c :: cs => by
    by_cases hc : isWs c
    · rw [wordsTW_cons_ws c cs hc]
      exact wordsTW_ne_nil cs
    · have hc' : isWs c = false := by simpa using hc
      rw [wordsTW_cons_not c cs hc']
      intro w hw
      rcases List.mem_cons.mp hw with h1 | h2
      · rw [h1]; simp
      · exact wordsTW_ne_nil _ w h2
termination_by cs => cs.length
decreasing_by
  · simp
  · exact Nat.lt_succ_of_le ((List.dropWhile_sublist _).length_le)

theorem joinSp_cons_cons (a : Char) (w : List Char) (ws : List (List Char)) :
    joinSp ((a :: w) :: ws) = a :: joinSp (w :: ws) := by
  cases ws with
  | nil => rfl
  | cons v ws => rfl

theorem stripR_collapseWs_eq : ∀ cs : List Char,
    (∀ d rest, cs = d :: rest → isWs d = false) →
    stripR (collapseWs cs) = joinSp (wordsTW cs)
  | [], _ => by simp [collapseWs, stripR_nil, wordsTW_nil, joinSp]
  | [c], h => by
    have hc : isWs c = false := h c [] rfl
    rw [collapseWs_cons_not c [] hc, stripR_cons_not c _ hc,
      wordsTW_cons_not c [] hc, joinSp_cons_cons]
    simp [stripR_nil, collapseWs, wordsTW_nil, joinSp]
  | c :: d :: cs'', h => by
    have hc : isWs c = false := h c (d :: cs'') rfl
    rw [collapseWs_cons_not c _ hc, stripR_cons_not c _ hc,
      wordsTW_cons_not c _ hc, joinSp_cons_cons]
    congr 1
    by_cases hd : isWs d
    · rw [show (d :: cs'').takeWhile (fun e => !isWs e) = [] by
        simp [List.takeWhile_cons, hd]]
      rw [show (d :: cs'').dropWhile (fun e => !isWs e) = d :: cs'' by
        simp [List.dropWhile_cons, hd]]
      rw [collapseWs_cons_ws cs'' d hd]
      rw [stripR_cons_ws ' ' _ rfl]
      rw [stripR_collapseWs_eq (cs''.dropWhile isWs)
        (fun e rest he => isWs_head_dropWhile cs'' e rest he)]
      rw [wordsTW_stripL cs'']
      rw [wordsTW_cons_ws d cs'' hd]
      cases hw : wordsTW cs'' with
      | nil => simp [joinSp]
      | cons w ws =>
        have hwne : w ≠ [] :=
          wordsTW_ne_nil cs'' w (hw ▸ List.mem_cons_self w ws)
        cases w with
        | nil => exact absurd rfl hwne
        | cons a w' =>
          rw [joinSp_cons_cons]
          rw [if_neg (by simp)]
          rw [show joinSp ([] :: (a :: w') :: ws) =
                ' ' :: joinSp ((a :: w') :: ws) from rfl, joinSp_cons_cons]
    · have hd' : isWs d = false := by simpa using hd
      rw [show (d :: cs'').takeWhile (fun e => !isWs e) =
            d :: cs''.takeWhile (fun e => !isWs e) by
        simp [List.takeWhile_cons, hd']]
      rw [show (d :: cs'').dropWhile (fun e => !isWs e) =
            cs''.dropWhile (fun e => !isWs e) by
        simp [List.dropWhile_cons, hd']]
      rw [← wordsTW_cons_not d cs'' hd']
      exact stripR_collapseWs_eq (d :: cs'')
        (fun e rest he => by cases he; exact hd')
termination_by cs => cs.length
decreasing_by
  · exact Nat.lt_succ_of_le (Nat.le_succ_of_le ((List.dropWhile_sublist _).length_le))
  · simp

/-- `re.sub(r'\s+', ' ', text).strip()` computes exactly the whitespace-normal
form of `text`. -/
theorem stripWs_collapseWs_eq_normalForm (cs : List Char) :
    stripWs (collapseWs cs) = normalForm cs := by
  show stripR (stripL (collapseWs cs)) = _
  rw [stripL_collapseWs]
  rw [stripR_collapseWs_eq (stripL cs) (fun d rest h => isWs_head_dropWhile cs d rest h)]
  show joinSp (wordsTW (List.dropWhile isWs cs)) = _
  rw [wordsTW_stripL, normalForm, wordsOf_eq_wordsTW]

/-! ### Stable-sort lemmas (for the search handler's sorting step) -/

theorem stInsert_perm {α : Type} (le : α → α → Bool) (a : α) (l : List α) :
    (stInsert le a l).Perm (a :: l) := by
  induction l with
  | nil => exact List.Perm.refl _
  | cons b l ih =>
    by_cases h : le a b
    · rw [stInsert, if_pos h]
    · rw [stInsert, if_neg h]
      exact (ih.cons b).trans (List.Perm.swap a b l)

theorem pySort_perm {α : Type} (le : α → α → Bool) (l : List α) :
    (pySort le l).Perm l := by
  induction l with
  | nil => exact List.Perm.refl _
  | cons a l ih =>
    exact (stInsert_perm le a (pySort le l)).trans (ih.cons a)

theorem pairwise_stInsert {α : Type} (le : α → α → Bool)
    (htot : ∀ a b, le a b || le b a)
    (htr : ∀ a b c, le a b = true → le b c = true → le a c = true)
    (a : α) (l : List α) (hl : l.Pairwise (fun x y => le x y = true)) :
    (stInsert le a l).Pairwise (fun x y => le x y = true) := by
  induction l with
  | nil => simp [stInsert]
  | cons b l ih =>
    rcases List.pairwise_cons.mp hl with ⟨hb, hl'⟩
    by_cases h : le a b
    · rw [stInsert, if_pos h]
      refine List.pairwise_cons.mpr ⟨?_, hl⟩
      intro x hx
      rcases List.mem_cons.mp hx with rfl | hx'
      · exact h
      · exact htr a b x h (hb x hx')
    · rw [stInsert, if_neg h]
      have hba : le b a = true := by
        rcases Bool.or_eq_true_iff.mp (htot a b) with h1 | h2
        · exact absurd h1 h
        · exact h2
      refine List.pairwise_cons.mpr ⟨?_, ih hl'⟩
      intro x hx
      rcases List.mem_cons.mp ((stInsert_perm le a l).mem_iff.mp hx) with rfl | hx'
      · exact hba
      · exact hb x hx'

theorem pairwise_pySort {α : Type} (le : α → α → Bool)
    (htot : ∀ a b, le a b || le b a)
    (htr : ∀ a b c, le a b = true → le b c = true → le a c = true)
    (l : List α) : (pySort le l).Pairwise (fun x y => le x y = true) := by
  induction l with
  | nil => simp [pySort]
  | cons a l ih => exact pairwise_stInsert le htot htr a (pySort le l) ih

theorem lexLe_total (as bs : List Char) : lexLe as bs || lexLe bs as := by
  induction as generalizing bs with
  | nil => simp [lexLe]
  | cons a as ih =>
    cases bs with
    | nil => simp [lexLe]
    | cons b bs =>
      rcases Nat.lt_trichotomy a.toNat b.toNat with h | h | h
      · simp [lexLe, h]
      · simpa [lexLe, h, Nat.lt_irrefl] using ih bs
      · simp [lexLe, h, Nat.lt_asymm h, Nat.ne_of_gt h]

theorem lexLe_trans : ∀ as bs cs : List Char,
    lexLe as bs = true → lexLe bs cs = true → lexLe as cs = true
  | [], _, _, _, _ => rfl
  | a :: as, [], _, h, _ => by simp [lexLe] at h
  | a :: as, b :: bs, [], _, h => by simp [lexLe] at h
  | a :: as, b :: bs, c :: cs, hab, hbc => by
    rw [lexLe] at hab hbc ⊢
    rcases Nat.lt_trichotomy a.toNat b.toNat with h1 | h1 | h1
    · rcases Nat.lt_trichotomy b.toNat c.toNat with h2 | h2 | h2
      · rw [if_pos (Nat.lt_trans h1 h2)]
      · rw [if_pos (h2 ▸ h1)]
      · rw [if_neg (by omega), if_neg (by omega)] at hbc
        exact absurd hbc (by simp)
    · rcases Nat.lt_trichotomy b.toNat c.toNat with h2 | h2 | h2
      · rw [if_pos (h1 ▸ h2)]
      · rw [if_neg (by omega), if_pos (h1.trans h2)]
        rw [if_neg (by omega), if_pos h1] at hab
        rw [if_neg (by omega), if_pos h2] at hbc
        exact lexLe_trans as bs cs hab hbc
      · rw [if_neg (by omega), if_neg (by omega)] at hbc
        exact absurd hbc (by simp)
    · rw [if_neg (by omega), if_neg (by omega)] at hab
      exact absurd hab (by simp)

/-! ### Scanner lemmas -/

theorem indexScan_paths (now : Nat) : ∀ (store : List PdfFile)
    (indexed : List String) (docs : List Doc),
    indexScan now store indexed = some docs →
    (docs.map Doc.path).Nodup ∧ ∀ d ∈ docs, d.path ∉ indexed := by
  intro store
  induction store with
  | nil =>
    intro indexed docs h
    rw [indexScan] at h
    cases h
    simp
  | cons f fs ih =>
    intro indexed docs h
    rw [indexScan] at h
    by_cases hp : endsWithPdf f.name = true ∧ f.name ∉ indexed
    · rw [if_pos hp] at h
      by_cases hct : extract_text_from_pdf f = ""
      · rw [if_pos hct] at h
        exact ih indexed docs h
      · rw [if_neg hct] at h
        cases hr2 : f.read2 with
        | none => rw [hr2] at h; cases h
        | some pages2 =>
          rw [hr2] at h
          cases hrec : indexScan now fs (f.name :: indexed) with
          | none => rw [hrec] at h; cases h
          | some docs0 =>
            rw [hrec] at h
            cases h
            obtain ⟨hnd, hnotin⟩ := ih (f.name :: indexed) docs0 hrec
            refine ⟨?_, ?_⟩
            · rw [List.map_cons]
              refine List.nodup_cons.mpr ⟨?_, hnd⟩
              intro hmem
              rcases List.mem_map.mp hmem with ⟨d, hd, hdp⟩
              exact (hnotin d hd) (hdp ▸ List.mem_cons_self _ _)
            · intro d hd
              rcases List.mem_cons.mp hd with rfl | hd'
              · exact hp.2
              · exact fun hmem => (hnotin d hd') (List.mem_cons_of_mem _ hmem)
    · rw [if_neg hp] at h
      exact ih indexed docs h

theorem indexScan_sound (now : Nat) : ∀ (store : List PdfFile)
    (indexed : List String) (docs : List Doc),
    indexScan now store indexed = some docs →
    ∀ d ∈ docs, ∃ f ∈ store, ∃ pages2, f.read2 = some pages2 ∧
      endsWithPdf f.name = true ∧ extract_text_from_pdf f ≠ "" ∧
      d = { title := stemOf f.name, content := extract_text_from_pdf f,
            path := f.name, page_count := pages2.length,
            category := "Uncategorized", date_added := now } := by
  intro store
  induction store with
  | nil =>
    intro indexed docs h
    rw [indexScan] at h
    cases h
    simp
  | cons f fs ih =>
    intro indexed docs h
    rw [indexScan] at h
    by_cases hp : endsWithPdf f.name = true ∧ f.name ∉ indexed
    · rw [if_pos hp] at h
      by_cases hct : extract_text_from_pdf f = ""
      · rw [if_pos hct] at h
        intro d hd
        obtain ⟨g, hg, rest⟩ := ih indexed docs h d hd
        exact ⟨g, List.mem_cons_of_mem f hg, rest⟩
      · rw [if_neg hct] at h
        cases hr2 : f.read2 with
        | none => rw [hr2] at h; cases h
        | some pages2 =>
          rw [hr2] at h
          cases hrec : indexScan now fs (f.name :: indexed) with
          | none => rw [hrec] at h; cases h
          | some docs0 =>
            rw [hrec] at h
            cases h
            intro d hd
            rcases List.mem_cons.mp hd with rfl | hd'
            · exact ⟨f, List.mem_cons_self f fs, pages2, hr2, hp.1, hct, rfl⟩
            · obtain ⟨g, hg, rest⟩ := ih (f.name :: indexed) docs0 hrec d hd'
              exact ⟨g, List.mem_cons_of_mem f hg, rest⟩
    · rw [if_neg hp] at h
      intro d hd
      obtain ⟨g, hg, rest⟩ := ih indexed docs h d hd
      exact ⟨g, List.mem_cons_of_mem f hg, rest⟩

theorem indexScan_complete (now : Nat) : ∀ (store : List PdfFile)
    (indexed : List String) (docs : List Doc),
    (∀ g ∈ store, g.name ∉ indexed) →
    (store.map PdfFile.name).Nodup →
    indexScan now store indexed = some docs →
    ∀ f ∈ store, endsWithPdf f.name = true → extract_text_from_pdf f ≠ "" →
      ∃ pages2, f.read2 = some pages2 ∧
        ({ title := stemOf f.name, content := extract_text_from_pdf f,
           path := f.name, page_count := pages2.length,
           category := "Uncategorized", date_added := now } : Doc) ∈ docs := by
  intro store
  induction store with
  | nil =>
    intro indexed docs _ _ _ f hf
    exact absurd hf (List.not_mem_nil f)
  | cons g fs ih =>
    intro indexed docs hind hnds h f hf hext hne
    have hndt : (fs.map PdfFile.name).Nodup := by
      rw [List.map_cons] at hnds
      exact (List.nodup_cons.mp hnds).2
    rw [indexScan] at h
    rcases List.mem_cons.mp hf with rfl | hf'
    · have hp : endsWithPdf f.name = true ∧ f.name ∉ indexed :=
        ⟨hext, hind f (List.mem_cons_self f fs)⟩
      rw [if_pos hp, if_neg hne] at h
      cases hr2 : f.read2 with
      | none => rw [hr2] at h; cases h
      | some pages2 =>
        rw [hr2] at h
        cases hrec : indexScan now fs (f.name :: indexed) with
        | none => rw [hrec] at h; cases h
        | some docs0 =>
          rw [hrec] at h
          cases h
          exact ⟨pages2, rfl, List.mem_cons_self _ _⟩
    · by_cases hp : endsWithPdf g.name = true ∧ g.name ∉ indexed
      · rw [if_pos hp] at h
        by_cases hct : extract_text_from_pdf g = ""
        · rw [if_pos hct] at h
          exact ih indexed docs (fun x hx => hind x (List.mem_cons_of_mem g hx))
            hndt h f hf' hext hne
        · rw [if_neg hct] at h
          cases hr2 : g.read2 with
          | none => rw [hr2] at h; cases h
          | some pages2 =>
            rw [hr2] at h
            cases hrec : indexScan now fs (g.name :: indexed) with
            | none => rw [hrec] at h; cases h
            | some docs0 =>
              rw [hrec] at h
              cases h
              have hind' : ∀ x ∈ fs, x.name ∉ g.name :: indexed := by
                intro x hx hmem
                rcases List.mem_cons.mp hmem with heq | hmem'
                · have hgn : g.name ∉ fs.map PdfFile.name := by
                    rw [List.map_cons] at hnds
                    exact (List.nodup_cons.mp hnds).1
                  exact hgn (heq ▸ List.mem_map_of_mem PdfFile.name hx)
                · exact hind x (List.mem_cons_of_mem g hx) hmem'
              obtain ⟨pages2', hr2', hmem⟩ :=
                ih (g.name :: indexed) docs0 hind' hndt hrec f hf' hext hne
              exact ⟨pages2', hr2', List.mem_cons_of_mem _ hmem⟩
      · rw [if_neg hp] at h
        exact ih indexed docs (fun x hx => hind x (List.mem_cons_of_mem g hx))
          hndt h f hf' hext hne

theorem indexScan_none_iff (now : Nat) : ∀ (store : List PdfFile)
    (indexed : List String),
    (∀ g ∈ store, g.name ∉ indexed) →
    (store.map PdfFile.name).Nodup →
    (indexScan now store indexed = none ↔
      ∃ f ∈ store, endsWithPdf f.name = true ∧ extract_text_from_pdf f ≠ "" ∧
        f.read2 = none) := by
  intro store
  induction store with
  | nil =>
    intro indexed _ _
    rw [indexScan]
    simp
  | cons g fs ih =>
    intro indexed hind hnds
    have hndt : (fs.map PdfFile.name).Nodup := by
      rw [List.map_cons] at hnds
      exact (List.nodup_cons.mp hnds).2
    rw [indexScan]
    by_cases hp : endsWithPdf g.name = true ∧ g.name ∉ indexed
    · rw [if_pos hp]
      by_cases hct : extract_text_from_pdf g = ""
      · rw [if_pos hct]
        rw [ih indexed (fun x hx => hind x (List.mem_cons_of_mem g hx)) hndt]
        constructor
        · rintro ⟨f, hf, rest⟩
          exact ⟨f, List.mem_cons_of_mem g hf, rest⟩
        · rintro ⟨f, hf, h1, h2, h3⟩
          rcases List.mem_cons.mp hf with rfl | hf'
          · exact absurd hct h2
          · exact ⟨f, hf', h1, h2, h3⟩
      · rw [if_neg hct]
        cases hr2 : g.read2 with
        | none =>
          constructor
          · intro _
            exact ⟨g, List.mem_cons_self g fs, hp.1, hct, hr2⟩
          · intro _
            rfl
        | some pages2 =>
          have hind' : ∀ x ∈ fs, x.name ∉ g.name :: indexed := by
            intro x hx hmem
            rcases List.mem_cons.mp hmem with heq | hmem'
            · have hgn : g.name ∉ fs.map PdfFile.name := by
                rw [List.map_cons] at hnds
                exact (List.nodup_cons.mp hnds).1
              exact hgn (heq ▸ List.mem_map_of_mem PdfFile.name hx)
            · exact hind x (List.mem_cons_of_mem g hx) hmem'
          have hih := ih (g.name :: indexed) hind' hndt
          cases hrec : indexScan now fs (g.name :: indexed) with
          | none =>
            constructor
            · intro _
              obtain ⟨f, hf, rest⟩ := hih.mp hrec
              exact ⟨f, List.mem_cons_of_mem g hf, rest⟩
            · intro _
              rfl
          | some docs0 =>
            constructor
            · intro hcontra
              exact absurd hcontra (by simp)
            · rintro ⟨f, hf, h1, h2, h3⟩
              rcases List.mem_cons.mp hf with rfl | hf'
              · rw [hr2] at h3
                cases h3
              · have hnone := hih.mpr ⟨f, hf', h1, h2, h3⟩
                rw [hrec] at hnone
                cases hnone
    · rw [if_neg hp]
      have hgnot : ¬ endsWithPdf g.name = true :=
        fun he => hp ⟨he, hind g (List.mem_cons_self g fs)⟩
      rw [ih indexed (fun x hx => hind x (List.mem_cons_of_mem g hx)) hndt]
      constructor
      · rintro ⟨f, hf, rest⟩
        exact ⟨f, List.mem_cons_of_mem g hf, rest⟩
      · rintro ⟨f, hf, h1, h2, h3⟩
        rcases List.mem_cons.mp hf with rfl | hf'
        · exact absurd h1 hgnot
        · exact ⟨f, hf', h1, h2, h3⟩

/-! ### Claim theorems -/

/-- C9: for every input, the text extractor returns either the page text
joined by `" ".join` with every maximal whitespace run collapsed to a single
space and leading/trailing whitespace removed (`normalForm`), or the empty
string; an extraction exception (`read1 = none`) yields `""` instead of
propagating. -/
theorem extract_text_spec (f : PdfFile) :
    (f.read1 = none → extract_text_from_pdf f = "") ∧
    (∀ pages, f.read1 = some pages →
      extract_text_from_pdf f = String.mk (normalForm (joinPages pages))) := by
  constructor
  · intro h
    simp [extract_text_from_pdf, h]
  · intro pages h
    simp [extract_text_from_pdf, h, stripWs_collapseWs_eq_normalForm]

/-- Witness for C9: a failing extraction returns `""`, and a successful one
returns the normal form of the joined page text. -/
theorem extract_text_spec_witness :
    ((⟨"a.pdf", none, none⟩ : PdfFile).read1 = none ∧
      extract_text_from_pdf ⟨"a.pdf", none, none⟩ = "") ∧
    ((⟨"b.pdf", some [some " a  b ", none], none⟩ : PdfFile).read1 =
        some [some " a  b ", none] ∧
      extract_text_from_pdf ⟨"b.pdf", some [some " a  b ", none], none⟩ =
        String.mk (normalForm (joinPages [some " a  b ", none]))) :=
  ⟨⟨rfl, (extract_text_spec _).1 rfl⟩, ⟨rfl, (extract_text_spec _).2 _ rfl⟩⟩

/-- C8: `create_or_open_index` creates a fresh empty index with the current
schema when none exists or when opening raises; destroys and recreates when a
required field is missing from the existing field set; and otherwise returns
the existing index unchanged. -/
theorem create_or_open_index_spec :
    (create_or_open_index .absent = ⟨current_schema, []⟩) ∧
    (create_or_open_index .corrupt = ⟨current_schema, []⟩) ∧
    (∀ fields docs, (∃ fld ∈ current_schema, fld ∉ fields) →
      create_or_open_index (.present fields docs) = ⟨current_schema, []⟩) ∧
    (∀ fields docs, (∀ fld ∈ current_schema, fld ∈ fields) →
      create_or_open_index (.present fields docs) = ⟨fields, docs⟩) := by
  refine ⟨rfl, rfl, ?_, ?_⟩
  · rintro fields docs ⟨fld, hmem, hnot⟩
    rw [create_or_open_index, if_neg]
    intro hall
    rw [List.all_eq_true] at hall
    exact hnot (by simpa using hall fld hmem)
  · intro fields docs hall
    rw [create_or_open_index, if_pos]
    rw [List.all_eq_true]
    intro fld hmem
    simpa using hall fld hmem

/-- Witness for C8: a legacy field set missing `page_count` is rebuilt; a
complete field set is opened unchanged. -/
theorem create_or_open_index_spec_witness :
    (∃ fld ∈ current_schema, fld ∉ ["title", "content", "path"]) ∧
    create_or_open_index (.present ["title", "content", "path"] []) =
      ⟨current_schema, []⟩ ∧
    (∀ fld ∈ current_schema, fld ∈ current_schema) ∧
    create_or_open_index (.present current_schema [⟨"t", "c", "p.pdf", 1, "k", 0⟩]) =
      ⟨current_schema, [⟨"t", "c", "p.pdf", 1, "k", 0⟩]⟩ :=
  ⟨by decide, create_or_open_index_spec.2.2.1 _ _ (by decide),
   fun _ h => h, create_or_open_index_spec.2.2.2 _ _ (fun _ h => h)⟩

/-- C7: for every result list and page number `p ≥ 1`, the returned page is
the slice of items `(p-1)*5+1 .. p*5` of the list (fewer on the last page),
and `total_pages` is the least `m` with `length ≤ 5*m`, i.e. the ceiling of
`length / 5`. -/
theorem pagination_spec (rs : List SearchResult) (p : Nat) (hp : 1 ≤ p) :
    (∀ i : Nat, (paginate rs p)[i]? =
      if i < per_page then rs[(p - 1) * per_page + i]? else none) ∧
    rs.length ≤ per_page * total_pages rs.length ∧
    (∀ m : Nat, rs.length ≤ per_page * m → total_pages rs.length ≤ m) := by
  refine ⟨?_, ?_, ?_⟩
  · intro i
    rw [paginate, List.getElem?_take]
    by_cases hi : i < per_page
    · rw [if_pos hi, if_pos hi, List.getElem?_drop]
    · rw [if_neg hi, if_neg hi]
  · show rs.length ≤ 5 * ((rs.length + 5 - 1) / 5)
    omega
  · intro m hm
    show (rs.length + 5 - 1) / 5 ≤ m
    revert hm
    show rs.length ≤ 5 * m → _
    omega

/-- Witness for C7: page 2 of a 7-element list. -/
theorem pagination_spec_witness :
    1 ≤ 2 ∧
    ((∀ i : Nat,
        (paginate (List.replicate 7 (⟨"t", "p", "s", "c", 0⟩ : SearchResult)) 2)[i]? =
          if i < per_page then
            (List.replicate 7 (⟨"t", "p", "s", "c", 0⟩ : SearchResult))[(2 - 1) * per_page + i]?
          else none) ∧
      (List.replicate 7 (⟨"t", "p", "s", "c", 0⟩ : SearchResult)).length ≤
        per_page * total_pages (List.replicate 7 (⟨"t", "p", "s", "c", 0⟩ : SearchResult)).length ∧
      (∀ m : Nat,
        (List.replicate 7 (⟨"t", "p", "s", "c", 0⟩ : SearchResult)).length ≤ per_page * m →
        total_pages (List.replicate 7 (⟨"t", "p", "s", "c", 0⟩ : SearchResult)).length ≤ m)) :=
  ⟨by decide, pagination_spec _ 2 (by decide)⟩

/-- C6: sorting the built result list with `sort_by=title` returns the same
results in non-decreasing lexicographic title order; `sort_by=date` returns
them in non-increasing (`most-recent-first`) order of their `date_added`
field; any other `sort_by` value leaves the list untouched. -/
theorem search_sorting_spec (rs : List SearchResult) :
    ((sortResults "title" rs).Perm rs ∧
      (sortResults "title" rs).Pairwise (fun a b => titleLe a b = true)) ∧
    ((sortResults "date" rs).Perm rs ∧
      (sortResults "date" rs).Pairwise (fun a b => b.date_added ≤ a.date_added)) ∧
    (∀ sb, sb ≠ "title" → sb ≠ "date" → sortResults sb rs = rs) := by
  refine ⟨⟨?_, ?_⟩, ⟨?_, ?_⟩, ?_⟩
  · rw [sortResults, if_pos rfl]
    exact pySort_perm _ _
  · rw [sortResults, if_pos rfl]
    exact pairwise_pySort titleLe (fun a b => lexLe_total _ _)
      (fun a b c => lexLe_trans _ _ _) rs
  · rw [sortResults, if_neg (by decide), if_pos rfl]
    exact pySort_perm _ _
  · rw [sortResults, if_neg (by decide), if_pos rfl]
    refine (pairwise_pySort dateGe ?_ ?_ rs).imp ?_
    · intro a b
      rcases Nat.le_total b.date_added a.date_added with h | h
      · simp [dateGe, h]
      · simp [dateGe, h]
    · intro a b c hab hbc
      simp only [dateGe, decide_eq_true_eq] at hab hbc ⊢
      exact hbc.trans hab
    · intro a b h
      simpa [dateGe] using h
  · intro sb h1 h2
    rw [sortResults, if_neg h1, if_neg h2]

/-- Witness for C6: an unknown `sort_by` value leaves a concrete list
unchanged. -/
theorem search_sorting_spec_witness :
    ("relevance" : String) ≠ "title" ∧ ("relevance" : String) ≠ "date" ∧
    sortResults "relevance"
        [⟨"b", "b.pdf", "s", "c", 3⟩, ⟨"a", "a.pdf", "s", "c", 7⟩] =
      [⟨"b", "b.pdf", "s", "c", 3⟩, ⟨"a", "a.pdf", "s", "c", 7⟩] :=
  ⟨by decide, by decide,
   (search_sorting_spec _).2.2 "relevance" (by decide) (by decide)⟩

/-- C3: an upload whose text extraction returns the empty string leaves the
application state exactly as it was — the saved file is removed again and no
index record is written — apart from the failure message
(`extractionFailed`). -/
theorem upload_empty_extraction_rolls_back (now : Nat) (f : PdfFile)
    (category : String) (s : AppState)
    (hname : ¬ (f.name = "" ∨ endsWithPdf f.name = false))
    (hdup : ¬ ∃ g ∈ s.store, g.name = f.name)
    (hempty : extract_text_from_pdf f = "") :
    upload now f category s = (.extractionFailed, s) := by
  rw [upload, if_neg hname, if_neg hdup, if_pos hempty]
  have hrm : removeFile f.name (s.store ++ [f]) = s.store := by
    rw [removeFile, List.filter_append]
    have h1 : List.filter (fun g => !(g.name == f.name)) [f] = [] := by simp
    have h2 : List.filter (fun g => !(g.name == f.name)) s.store = s.store := by
      rw [List.filter_eq_self]
      intro g hg
      have hne : g.name ≠ f.name := fun he => hdup ⟨g, hg, he⟩
      simp [hne]
    rw [h1, h2, List.append_nil]
  rw [hrm]

/-- Witness for C3: uploading a whitespace-only PDF into an empty library. -/
theorem upload_empty_extraction_rolls_back_witness :
    (¬ ((⟨"img.pdf", some [some " "], none⟩ : PdfFile).name = "" ∨
        endsWithPdf (⟨"img.pdf", some [some " "], none⟩ : PdfFile).name = false)) ∧
    (¬ ∃ g ∈ ([] : List PdfFile), g.name = (⟨"img.pdf", some [some " "], none⟩ : PdfFile).name) ∧
    extract_text_from_pdf ⟨"img.pdf", some [some " "], none⟩ = "" ∧
    upload 7 ⟨"img.pdf", some [some " "], none⟩ "c" ⟨[], []⟩ =
      (.extractionFailed, ⟨[], []⟩) :=
  ⟨by decide, by decide, by decide,
   upload_empty_extraction_rolls_back 7 _ "c" ⟨[], []⟩ (by decide) (by decide)
     (by decide)⟩

/-- C10: when text extraction succeeds but the re-read of the PDF for the
page count raises (after the file was saved, before the index record is
committed), the handler reports an error, the saved file stays in the store,
and no index record exists — upload is not atomic across the two stores. -/
theorem upload_not_atomic_on_late_failure (now : Nat) (f : PdfFile)
    (category : String) (s : AppState)
    (hname : ¬ (f.name = "" ∨ endsWithPdf f.name = false))
    (hdup : ¬ ∃ g ∈ s.store, g.name = f.name)
    (hnonempty : extract_text_from_pdf f ≠ "")
    (hfail : f.read2 = none) :
    upload now f category s = (.uploadError, { s with store := s.store ++ [f] }) := by
  rw [upload, if_neg hname, if_neg hdup, if_neg hnonempty, hfail]

/-- Witness for C10: a readable PDF whose second open fails is left in the
store with no index record. -/
theorem upload_not_atomic_on_late_failure_witness :
    (¬ ((⟨"b.pdf", some [some "x"], none⟩ : PdfFile).name = "" ∨
        endsWithPdf (⟨"b.pdf", some [some "x"], none⟩ : PdfFile).name = false)) ∧
    (¬ ∃ g ∈ ([] : List PdfFile), g.name = (⟨"b.pdf", some [some "x"], none⟩ : PdfFile).name) ∧
    extract_text_from_pdf ⟨"b.pdf", some [some "x"], none⟩ ≠ "" ∧
    (⟨"b.pdf", some [some "x"], none⟩ : PdfFile).read2 = none ∧
    upload 3 ⟨"b.pdf", some [some "x"], none⟩ "c" ⟨[], []⟩ =
      (.uploadError, ⟨[⟨"b.pdf", some [some "x"], none⟩], []⟩) :=
  ⟨by decide, by decide, by decide, rfl,
   upload_not_atomic_on_late_failure 3 _ "c" ⟨[], []⟩ (by decide) (by decide)
     (by decide) rfl⟩

/-- C1 (failing input): with a store holding `book.pdf` (content `fox`) and an
empty index, searching `fox` gets zero hits, triggers the re-index — which
does commit the document into the index (second conjunct: a fresh search over
the post-state finds it) — but the retried query runs on the searcher snapshot
opened before the re-index, so the user receives an empty result page. -/
theorem search_retry_uses_stale_snapshot :
    search (fun _ _ => "") 0 "fox" "relevance" 1
        ⟨[⟨"book.pdf", some [some "fox"], some [some "fox"]⟩], []⟩ =
      (SearchResp.page [] 1 0 true,
       ⟨[⟨"book.pdf", some [some "fox"], some [some "fox"]⟩],
        [⟨"book", "fox", "book.pdf", 1, "Uncategorized", 0⟩]⟩) ∧
    searchIndex "fox" [⟨"book", "fox", "book.pdf", 1, "Uncategorized", 0⟩] =
      [⟨"book", "fox", "book.pdf", 1, "Uncategorized", 0⟩] := by
  constructor
  · decide
  · decide

/-- C2 (counterexample): running the full re-index twice over the same store
appends a second record for `a.pdf` — `path` no longer identifies at most one
record. -/
theorem reindex_twice_duplicates_path :
    ((index_books 1 [⟨"a.pdf", some [some "x"], some [some "x"]⟩]
        (index_books 0 [⟨"a.pdf", some [some "x"], some [some "x"]⟩] []).2).2.map
        Doc.path) = ["a.pdf", "a.pdf"] ∧
    ¬ ((index_books 1 [⟨"a.pdf", some [some "x"], some [some "x"]⟩]
        (index_books 0 [⟨"a.pdf", some [some "x"], some [some "x"]⟩] []).2).2.map
        Doc.path).Nodup := by
  constructor
  · decide
  · decide

/-- C2 (amended): a single run of the full re-index only appends records with
pairwise-distinct paths; delete preserves path-uniqueness; upload preserves it
provided no record with the uploaded file's name is already indexed.  Across
runs uniqueness is not enforced: re-indexing already-indexed files appends
duplicates (see the counterexample). -/
theorem index_writers_path_nodup :
    (∀ (now : Nat) (store : List PdfFile) (ix : List Doc),
      ∃ docs, (index_books now store ix).2 = ix ++ docs ∧
        (docs.map Doc.path).Nodup) ∧
    (∀ (filename : String) (s : AppState),
      (s.index.map Doc.path).Nodup →
      (((delete filename s).2.index).map Doc.path).Nodup) ∧
    (∀ (now : Nat) (f : PdfFile) (category : String) (s : AppState),
      (s.index.map Doc.path).Nodup →
      (∀ d ∈ s.index, d.path ≠ f.name) →
      (((upload now f category s).2.index).map Doc.path).Nodup) := by
  refine ⟨?_, ?_, ?_⟩
  · intro now store ix
    cases hscan : indexScan now store [] with
    | none =>
      exact ⟨[], by rw [index_books, hscan, List.append_nil], by simp⟩
    | some docs =>
      exact ⟨docs, by rw [index_books, hscan],
        (indexScan_paths now store [] docs hscan).1⟩
  · intro filename s hnd
    rw [delete]
    by_cases hex : ∃ g ∈ s.store, g.name = filename
    · rw [if_pos hex]
      exact hnd.sublist ((List.filter_sublist s.index).map Doc.path)
    · rw [if_neg hex]
      exact hnd
  · intro now f category s hnd hfresh
    rw [upload]
    by_cases h1 : f.name = "" ∨ endsWithPdf f.name = false
    · rw [if_pos h1]
      exact hnd
    · rw [if_neg h1]
      by_cases h2 : ∃ g ∈ s.store, g.name = f.name
      · rw [if_pos h2]
        exact hnd
      · rw [if_neg h2]
        by_cases h3 : extract_text_from_pdf f = ""
        · rw [if_pos h3]
          exact hnd
        · rw [if_neg h3]
          cases hr2 : f.read2 with
          | none => exact hnd
          | some pages2 =>
            show ((s.index ++ [_]).map Doc.path).Nodup
            rw [List.map_append]
            rw [List.nodup_append]
            refine ⟨hnd, by simp, ?_⟩
            intro p hp hp'
            rcases List.mem_map.mp hp with ⟨d, hd, hdp⟩
            simp only [List.map_cons, List.map_nil, List.mem_cons,
              List.not_mem_nil, or_false] at hp'
            exact hfresh d hd (hdp ▸ hp')

/-- Witness for C2 (amended): the three preservation statements applied to a
concrete re-index over one file, a delete, and a fresh upload. -/
theorem index_writers_path_nodup_witness :
    (∃ docs, (index_books 0 [⟨"a.pdf", some [some "x"], some [some "x"]⟩] []).2 =
        [] ++ docs ∧ (docs.map Doc.path).Nodup) ∧
    (((⟨[⟨"p.pdf", none, none⟩], [⟨"t", "c", "p.pdf", 1, "k", 0⟩]⟩ : AppState).index.map
        Doc.path).Nodup ∧
      (((delete "p.pdf" ⟨[⟨"p.pdf", none, none⟩], [⟨"t", "c", "p.pdf", 1, "k", 0⟩]⟩).2.index).map
        Doc.path).Nodup) ∧
    ((((⟨[], []⟩ : AppState).index.map Doc.path).Nodup ∧
        (∀ d ∈ (⟨[], []⟩ : AppState).index, d.path ≠ "b.pdf")) ∧
      (((upload 0 ⟨"b.pdf", some [some "x"], some [some "x"]⟩ "c" ⟨[], []⟩).2.index).map
        Doc.path).Nodup) :=
  ⟨index_writers_path_nodup.1 0 _ [],
   ⟨by decide, index_writers_path_nodup.2.1 "p.pdf" _ (by decide)⟩,
   ⟨⟨by decide, by decide⟩,
    index_writers_path_nodup.2.2 0 _ "c" ⟨[], []⟩ (by decide) (by decide)⟩⟩

/-- C5: over a store with distinct file names (as `os.listdir` yields), a full
re-index that raises during the scan returns `0` with the index unchanged;
otherwise it appends — in one atomic step — exactly one record (category
`"Uncategorized"`, timestamp `now`) for every `.pdf` file with non-empty
extracted text, and returns the number of records written. -/
theorem index_books_spec (now : Nat) (store : List PdfFile) (ix : List Doc)
    (hnd : (store.map PdfFile.name).Nodup) :
    ((∃ f ∈ store, endsWithPdf f.name = true ∧ extract_text_from_pdf f ≠ "" ∧
        f.read2 = none) →
      index_books now store ix = (0, ix)) ∧
    (¬ (∃ f ∈ store, endsWithPdf f.name = true ∧ extract_text_from_pdf f ≠ "" ∧
        f.read2 = none) →
      ∃ docs, index_books now store ix = (docs.length, ix ++ docs) ∧
        (∀ d ∈ docs, d.category = "Uncategorized" ∧ d.date_added = now ∧
          ∃ f ∈ store, d.path = f.name ∧ d.content = extract_text_from_pdf f ∧
            extract_text_from_pdf f ≠ "" ∧ endsWithPdf f.name = true) ∧
        (∀ f ∈ store, endsWithPdf f.name = true → extract_text_from_pdf f ≠ "" →
          ∃ d ∈ docs, d.path = f.name ∧ d.content = extract_text_from_pdf f)) := by
  have hnone := indexScan_none_iff now store [] (by simp) hnd
  constructor
  · intro hex
    rw [index_books, hnone.mpr hex]
  · intro hnex
    cases hscan : indexScan now store [] with
    | none => exact absurd (hnone.mp hscan) hnex
    | some docs =>
      refine ⟨docs, by rw [index_books, hscan], ?_, ?_⟩
      · intro d hd
        obtain ⟨f, hf, pages2, hr2, hext, hne, hdeq⟩ :=
          indexScan_sound now store [] docs hscan d hd
        subst hdeq
        exact ⟨rfl, rfl, f, hf, rfl, rfl, hne, hext⟩
      · intro f hf hext hne
        obtain ⟨pages2, hr2, hmem⟩ :=
          indexScan_complete now store [] docs (by simp) hnd hscan f hf hext hne
        exact ⟨_, hmem, rfl, rfl⟩

/-- Witness for C5: a two-file store, one indexable PDF and one text file. -/
theorem index_books_spec_witness :
    (([⟨"book.pdf", some [some "fox"], some [some "fox"]⟩,
       ⟨"notes.txt", some [some "y"], some [some "y"]⟩].map PdfFile.name).Nodup) ∧
    (((∃ f ∈ [⟨"book.pdf", some [some "fox"], some [some "fox"]⟩,
          ⟨"notes.txt", some [some "y"], some [some "y"]⟩],
        endsWithPdf (PdfFile.name f) = true ∧ extract_text_from_pdf f ≠ "" ∧
          PdfFile.read2 f = none) →
      index_books 4 [⟨"book.pdf", some [some "fox"], some [some "fox"]⟩,
          ⟨"notes.txt", some [some "y"], some [some "y"]⟩] [] = (0, [])) ∧
    (¬ (∃ f ∈ [⟨"book.pdf", some [some "fox"], some [some "fox"]⟩,
          ⟨"notes.txt", some [some "y"], some [some "y"]⟩],
        endsWithPdf (PdfFile.name f) = true ∧ extract_text_from_pdf f ≠ "" ∧
          PdfFile.read2 f = none) →
      ∃ docs, index_books 4 [⟨"book.pdf", some [some "fox"], some [some "fox"]⟩,
          ⟨"notes.txt", some [some "y"], some [some "y"]⟩] [] =
          (docs.length, [] ++ docs) ∧
        (∀ d ∈ docs, Doc.category d = "Uncategorized" ∧ Doc.date_added d = 4 ∧
          ∃ f ∈ [⟨"book.pdf", some [some "fox"], some [some "fox"]⟩,
              ⟨"notes.txt", some [some "y"], some [some "y"]⟩],
            Doc.path d = PdfFile.name f ∧ Doc.content d = extract_text_from_pdf f ∧
              extract_text_from_pdf f ≠ "" ∧ endsWithPdf (PdfFile.name f) = true) ∧
        (∀ f ∈ [⟨"book.pdf", some [some "fox"], some [some "fox"]⟩,
            ⟨"notes.txt", some [some "y"], some [some "y"]⟩],
          endsWithPdf (PdfFile.name f) = true → extract_text_from_pdf f ≠ "" →
          ∃ d ∈ docs, Doc.path d = PdfFile.name f ∧
            Doc.content d = extract_text_from_pdf f))) :=
  ⟨by decide, index_books_spec 4 _ [] (by decide)⟩

/-- C4: the file name `../evil.pdf` passes every upload validation check (file
present, non-empty name, `.pdf` extension, no existing file at the target
path) — the upload is accepted and indexed — yet
`os.path.join(BOOKS_DIR, filename)` resolves outside the document-store
directory; no further sanitization exists in the handler. -/
theorem upload_accepts_path_traversal_filename :
    ((⟨"../evil.pdf", some [some "x"], some [some "x"]⟩ : PdfFile).name ≠ "" ∧
      endsWithPdf "../evil.pdf" = true ∧
      ¬ (∃ g ∈ ([] : List PdfFile), g.name = "../evil.pdf")) ∧
    (upload 0 ⟨"../evil.pdf", some [some "x"], some [some "x"]⟩ "c" ⟨[], []⟩).1 =
      .indexed ∧
    insideBooksDir (os_path_join "books" "../evil.pdf") = false ∧
    insideBooksDir (os_path_join "books" "good.pdf") = true := by
  refine ⟨⟨?_, ?_, ?_⟩, ?_, ?_, ?_⟩ <;> decide

end EbookSearch
